import Mathlib

/-!
Verification development for the Colony repository panel
(`HeavenEarthCompendium` in src/game/heaven_earth_data.cpp and
`HeavenEarthView` in src/views/heaven_earth_view.cpp).

Shallow embedding conventions:
* JSON documents already parsed by the external nlohmann library are
  modelled by the inductive `Json`; the raw byte stream is abstracted to
  `FileInput`, whose constructors mirror the three early-exit branches of
  `LoadFromFile` (unreadable file, parse exception, parsed document).
* The nlohmann accessors `entry.value(key, default)` and the conversion
  `get<T>` throw a type error when a present field has an incompatible
  type; this is modelled with `Except Unit`, whose error value stands for
  an escaped C++ exception.
* The C++ `std::unordered_map` histograms are only observed after being
  copied into vectors and sorted by a strict total order on their distinct
  keys, so the hash iteration order is unobservable; the embedding builds
  the same canonical sorted lists directly (see the uniqueness theorem for
  the affinity ranking, which proves that any list of the same entries in
  the same sorted order is equal to the canonical one).
* `std::sort` is modelled by the insertion sort `sortBy`; every property
  stated about sorted output (ordering of the comparator, length,
  membership, permutation) holds for every comparator-respecting output of
  `std::sort`, in particular for the one chosen by the embedding.
* Machine `int` grades are modelled by `Int`; counts and sizes, which are
  non-negative ints and `std::size_t`, are modelled by `Nat`.
-/

namespace Colony

/-- Parsed JSON values, mirroring the nlohmann document shape used by
`HeavenEarthCompendium::LoadFromFile`. Numbers are restricted to the
integers, the only numeric shape the loader reads (`grade`). -/
inductive Json where
  | null : Json
  | bool (b : Bool) : Json
  | num (n : Int) : Json
  | str (s : String) : Json
  | arr (elems : List Json) : Json
  | obj (fields : List (String × Json)) : Json

/-- One catalog entry, mirroring `struct MartialSoul`. -/
structure MartialSoul where
  name : String
  grade : Int
  category : String
  affinities : List String
  description : String
deriving DecidableEq, Repr

/-- Derived aggregate, mirroring `struct CompendiumSummary`. -/
structure CompendiumSummary where
  totalSouls : Nat
  rareSouls : Nat
  highestGrade : Int
  highestSoulName : String
  affinityNames : List String
  gradeCounts : List (Int × Nat)
  affinityCounts : List (String × Nat)
deriving DecidableEq, Repr

/-- The value-initialised `CompendiumSummary{}` of the C++ header. -/
def defaultSummary : CompendiumSummary :=
  { totalSouls := 0
    rareSouls := 0
    highestGrade := 0
    highestSoulName := ""
    affinityNames := []
    gradeCounts := []
    affinityCounts := [] }

/-- State of a `HeavenEarthCompendium` object: the four data members
`loaded_`, `sourcePath_`, `souls_`, `summary_`. Filesystem paths are
modelled as strings. -/
structure HeavenEarthCompendium where
  loaded : Bool
  sourcePath : String
  souls : List MartialSoul
  summary : CompendiumSummary
deriving DecidableEq, Repr

/-- The state produced by `HeavenEarthCompendium::Reset` (which is also
the default-constructed state): `loaded_ = false`, cleared path and soul
list, value-initialised summary. -/
def emptyCompendium : HeavenEarthCompendium :=
  { loaded := false, sourcePath := "", souls := [], summary := defaultSummary }

/-- Outcome of opening and parsing the file handed to `LoadFromFile`:
the stream failed to open, the nlohmann parse threw, or a document was
parsed. -/
inductive FileInput where
  | unreadable : FileInput
  | parseError : FileInput
  | parsed (doc : Json) : FileInput

/-- Lexicographic strict comparison of character lists, mirroring the
byte-wise `std::string::operator<` (Lean characters compare by code
point, which agrees with byte order on the ASCII data involved). -/
def strLtList : List Char → List Char → Bool
  | [], [] => false
  | [], _ :: _ => true
  | _ :: _, [] => false
  | a :: as, b :: bs => if a < b then true else if b < a then false else strLtList as bs

/-- `std::string` `operator<`. -/
def strLt (a b : String) : Bool := strLtList a.data b.data

/-- `std::string` `operator<=`, i.e. the negation of the reversed strict
comparison. Used as the non-strict form of the strict C++ sort
comparators. -/
def strLe (a b : String) : Bool := !(strLtList b.data a.data)

/-- First binding of a key in a parsed JSON object (nlohmann objects have
unique keys). -/
def findField (fields : List (String × Json)) (key : String) : Option Json :=
  (fields.find? (fun p => p.1 == key)).map (fun p => p.2)

/-- Model of `entry.value(key, stringDefault)`: the default when the key
is absent, the stored string when present with string type, and a thrown
`type_error` (modelled as `Except.error`) otherwise. -/
def valueStr (fields : List (String × Json)) (dflt : String) (key : String) :
    Except Unit String :=
  match findField fields key with
  | none => .ok dflt
  | some (.str s) => .ok s
  | some _ => .error ()

/-- Model of `entry.value(key, intDefault)`: nlohmann `get<int>` accepts
integral numbers and booleans and throws on every other present type. -/
def valueInt (fields : List (String × Json)) (dflt : Int) (key : String) :
    Except Unit Int :=
  match findField fields key with
  | none => .ok dflt
  | some (.num n) => .ok n
  | some (.bool b) => .ok (if b then 1 else 0)
  | some _ => .error ()

/-- The `affinities` block of the entry loop: when the field is present
and an array, keep exactly the string elements, in order; otherwise the
soul keeps an empty affinity list. Never throws. -/
def parseAffinities (fields : List (String × Json)) : List String :=
  match findField fields "affinities" with
  | some (.arr elems) =>
      elems.filterMap (fun j => match j with | .str s => some s | _ => none)
  | _ => []

/-- One iteration of the entry loop of `LoadFromFile`: non-objects are
skipped, field extraction may throw, an empty name drops the entry
(`.ok none`), otherwise the built soul is kept (`.ok (some s)`). The four
scalar fields are extracted, in source order, before the name test. -/
def parseEntry (entry : Json) : Except Unit (Option MartialSoul) :=
  match entry with
  | .obj fields =>
    match valueStr fields "" "name" with
    | .error u => .error u
    | .ok name =>
      match valueInt fields 0 "grade" with
      | .error u => .error u
      | .ok grade =>
        match valueStr fields "" "category" with
        | .error u => .error u
        | .ok category =>
          match valueStr fields "" "description" with
          | .error u => .error u
          | .ok description =>
            if name = "" then .ok none
            else .ok (some { name := name, grade := grade, category := category,
                             affinities := parseAffinities fields,
                             description := description })
  | _ => .ok none

/-- The whole entry loop: souls collected in file order, first thrown
exception propagated. -/
def parseEntries : List Json → Except Unit (List MartialSoul)
  | [] => .ok []
  | e :: es =>
    match parseEntry e with
    | .error u => .error u
    | .ok none => parseEntries es
    | .ok (some s) =>
      match parseEntries es with
      | .error u => .error u
      | .ok rest => .ok (s :: rest)

/-- A present field of `key` either is absent or holds a string, so
`entry.value(key, stringDefault)` does not throw. -/
def strFieldOk (fields : List (String × Json)) (key : String) : Bool :=
  match findField fields key with
  | none => true
  | some (.str _) => true
  | some _ => false

/-- A present field of `key` either is absent or holds a value
convertible to `int` (integral number or boolean), so
`entry.value(key, 0)` does not throw. -/
def intFieldOk (fields : List (String × Json)) (key : String) : Bool :=
  match findField fields key with
  | none => true
  | some (.num _) => true
  | some (.bool _) => true
  | some _ => false

/-- A well-formed soul entry in the sense of the input format of the
spec: an object whose `name` is a non-empty string and whose other
scalar fields, when present, have the documented types (so extraction
does not throw). Such an entry always yields a soul record. -/
def wellFormed (entry : Json) : Bool :=
  match entry with
  | .obj fields =>
    (match findField fields "name" with
     | some (.str s) => decide (s ≠ "")
     | _ => false)
      && intFieldOk fields "grade" && strFieldOk fields "category"
      && strFieldOk fields "description"
  | _ => false

/-- An array entry whose scalar fields have the documented types when
present (`name` may be missing or empty); non-objects are skipped by the
loop without reading any field. -/
def typedEntry (entry : Json) : Bool :=
  match entry with
  | .obj fields =>
    strFieldOk fields "name" && intFieldOk fields "grade"
      && strFieldOk fields "category" && strFieldOk fields "description"
  | _ => true

/-- An object entry whose `name` field is missing or the empty string:
the shape the loader drops. -/
def droppedName (entry : Json) : Bool :=
  match entry with
  | .obj fields =>
    match findField fields "name" with
    | none => true
    | some (.str s) => s == ""
    | _ => false
  | _ => false

/-- The load-failure conditions named by the spec: unreadable file,
invalid JSON, a document that is not an array, or an array whose entry
loop completes with zero valid souls. -/
def FailInput : FileInput → Prop
  | .unreadable => True
  | .parseError => True
  | .parsed (.arr entries) => parseEntries entries = .ok []
  | .parsed _ => True

/-- Insertion into a list sorted by the boolean relation `le`. -/
def insertBy {α : Type} (le : α → α → Bool) (a : α) : List α → List α
  | [] => [a]
  | b :: bs => if le a b then a :: b :: bs else b :: insertBy le a bs

/-- Insertion sort. Models the `std::sort` calls of the source: for the
strict total orders used there (distinct keys), the sorted result is
unique, so the choice of algorithm is unobservable. -/
def sortBy {α : Type} (le : α → α → Bool) : List α → List α
  | [] => []
  | a :: as => insertBy le a (sortBy le as)

/-- The distinct elements of a list (order irrelevant here: every use is
sorted afterwards). Models the key sets of the `std::unordered_map` /
`std::unordered_set` aggregation containers. -/
def distinctElems {α : Type} [DecidableEq α] : List α → List α
  | [] => []
  | a :: as =>
    let r := distinctElems as
    if a ∈ r then r else a :: r

/-- `NormalizeKey` from the anonymous namespace: byte-wise `toupper`.
Lean `Char.toUpper` agrees with C `toupper` on ASCII data. -/
def NormalizeKey (value : String) : String :=
  String.mk (value.data.map Char.toUpper)

/-- The multiset of affinity keys counted by `ComputeSummary`: all
affinity strings of all souls in order, empties skipped, then
normalised. -/
def affinityKeyStream (souls : List MartialSoul) : List String :=
  ((souls.flatMap (fun s => s.affinities)).filter (fun a => !(a == ""))).map NormalizeKey

/-- One iteration of the highest-grade scan of `ComputeSummary`:
`highestGrade = max(highestGrade, grade)` followed by
`if (grade == highestGrade) highestSoulName = name`. -/
def hgStep (acc : Int × String) (s : MartialSoul) : Int × String :=
  let hg := max acc.1 s.grade
  (hg, if s.grade = hg then s.name else acc.2)

/-- Comparator of the affinity histogram sort: count descending, then
key ascending, as a total (non-strict) relation; the C++ strict
comparator orders distinct keys identically. -/
def affinityPairLe (p q : String × Nat) : Bool :=
  if p.2 ≠ q.2 then decide (q.2 < p.2) else strLe p.1 q.1

/-- `HeavenEarthCompendium::ComputeSummary`, as a function of the loaded
soul list. The unordered-map histograms are observed only after sorting
by a strict total order on their distinct keys, so they are built here
directly in canonical sorted form. -/
def ComputeSummary (souls : List MartialSoul) : CompendiumSummary :=
  if souls.isEmpty then defaultSummary
  else
    let hp := souls.foldl hgStep (0, "")
    let grades := souls.map (fun s => s.grade)
    let affs := affinityKeyStream souls
    { totalSouls := souls.length
      rareSouls := (souls.filter (fun s => decide (7 ≤ s.grade))).length
      highestGrade := hp.1
      highestSoulName := hp.2
      affinityNames := sortBy strLe (distinctElems affs)
      gradeCounts :=
        sortBy (fun p q => decide (q.1 ≤ p.1))
          ((distinctElems grades).map (fun g => (g, grades.count g)))
      affinityCounts :=
        sortBy affinityPairLe
          ((distinctElems affs).map (fun k => (k, affs.count k))) }

/-- `HeavenEarthCompendium::LoadFromFile`. `Reset()` runs first, so the
result never depends on the prior state `c`; failure paths return the
reset (empty) state, the success path stores the path, souls and freshly
computed summary. An `Except.error` models an nlohmann type error thrown
out of the entry loop. -/
def LoadFromFile (c : HeavenEarthCompendium) (filePath : String)
    (input : FileInput) : Except Unit (Bool × HeavenEarthCompendium) :=
  match input with
  | .unreadable => .ok (false, emptyCompendium)
  | .parseError => .ok (false, emptyCompendium)
  | .parsed (.arr entries) =>
    match parseEntries entries with
    | .error u => .error u
    | .ok souls =>
      if souls.isEmpty then .ok (false, emptyCompendium)
      else .ok (true, { loaded := true, sourcePath := filePath, souls := souls,
                        summary := ComputeSummary souls })
  | .parsed _ => .ok (false, emptyCompendium)

/-- `IsLoaded`. -/
def IsLoaded (c : HeavenEarthCompendium) : Bool := c.loaded

/-- `Souls`. -/
def Souls (c : HeavenEarthCompendium) : List MartialSoul := c.souls

/-- `Summary`. -/
def Summary (c : HeavenEarthCompendium) : CompendiumSummary := c.summary

/-- `SourcePath`. -/
def SourcePath (c : HeavenEarthCompendium) : String := c.sourcePath

/-- Comparator of `TopSouls`: grade descending, ties by name ascending,
as a total relation (the C++ strict comparator orders souls with the same
grade and name keys identically up to their unspecified relative order,
which none of the stated properties observe). -/
def soulLe (lhs rhs : MartialSoul) : Bool :=
  if lhs.grade ≠ rhs.grade then decide (rhs.grade < lhs.grade)
  else strLe lhs.name rhs.name

/-- `HeavenEarthCompendium::TopSouls`: rank all souls, then
`resize(count)` when longer. The C++ vector of pointers into `souls_` is
modelled by the souls themselves. -/
def TopSouls (c : HeavenEarthCompendium) (count : Nat) : List MartialSoul :=
  (sortBy soulLe c.souls).take count

/-- `HeavenEarthCompendium::TopAffinities`: prefix of the precomputed
affinity histogram. -/
def TopAffinities (c : HeavenEarthCompendium) (count : Nat) :
    List (String × Nat) :=
  c.summary.affinityCounts.take count

/-- `HeavenEarthCompendium::GradeCountsDescending`. -/
def GradeCountsDescending (c : HeavenEarthCompendium) : List (Int × Nat) :=
  c.summary.gradeCounts

/-- The filesystem environment of `LoadDefault`: the result of
`ResolveDefaultPath` (`none` models the empty path returned when no
candidate exists) and the contents behind each path. -/
structure FileSystem where
  defaultPath : Option String
  contents : String → FileInput

/-- `HeavenEarthCompendium::LoadDefault`: empty resolved path resets and
fails, otherwise defers to `LoadFromFile`. -/
def LoadDefault (fs : FileSystem) (c : HeavenEarthCompendium) :
    Except Unit (Bool × HeavenEarthCompendium) :=
  match fs.defaultPath with
  | none => .ok (false, emptyCompendium)
  | some p => LoadFromFile c p (fs.contents p)

/-- Spotlight card of the view text cache; only the soul reference is
relevant to the modelled behaviour (the textures are draw-only). A `none`
soul models the `nullptr` placeholder card built when no data is
available. -/
structure SoulSpotlight where
  soul : Option MartialSoul
deriving DecidableEq, Repr

/-- The `HeavenEarthView` state relevant to the compendium and to the
rotating spotlight pointer: `dataAvailable_`, the spotlight cards of
`textCache_`, and `activePrimarySoulIndex_`. The pure drawing caches and
colors are not modelled; none of the stated properties observe them. -/
structure HeavenEarthView where
  dataAvailable : Bool
  spotlightCards : List SoulSpotlight
  activePrimarySoulIndex : Nat
deriving DecidableEq, Repr

/-- The member-initialised view state of a fresh `HeavenEarthView`. -/
def HeavenEarthViewInit : HeavenEarthView :=
  { dataAvailable := false, spotlightCards := [], activePrimarySoulIndex := 0 }

/-- The `HeavenEarthView` constructor body: with a non-null compendium
pointer, lazily `LoadDefault()` when not yet loaded (discarding the
boolean result). -/
def HeavenEarthViewConstruct (fs : FileSystem) (c : HeavenEarthCompendium) :
    Except Unit (HeavenEarthView × HeavenEarthCompendium) :=
  if c.loaded then .ok (HeavenEarthViewInit, c)
  else
    match LoadDefault fs c with
    | .error u => .error u
    | .ok r => .ok (HeavenEarthViewInit, r.2)

/-- `BuildSpotlights`: one `nullptr` placeholder card when no data is
available, otherwise one card per entry of `TopSouls(3)` (the ranked
pointers are never null, so the null skip in the loop never fires). -/
def BuildSpotlights (dataAvailable : Bool) (c : HeavenEarthCompendium) :
    List SoulSpotlight :=
  if dataAvailable then (TopSouls c 3).map (fun s => { soul := some s })
  else [{ soul := none }]

/-- `HeavenEarthView::Activate`: lazily load the default data when the
compendium is not loaded, refresh `dataAvailable_`, rebuild the text
cache (of which the spotlight cards are the modelled part). The
`activePrimarySoulIndex_` member is not touched. -/
def Activate (fs : FileSystem) (v : HeavenEarthView)
    (c : HeavenEarthCompendium) :
    Except Unit (HeavenEarthView × HeavenEarthCompendium) :=
  match (if c.loaded then .ok (true, c) else LoadDefault fs c) with
  | .error u => .error u
  | .ok r =>
    let cNew := r.2
    let da := cNew.loaded
    .ok ({ v with dataAvailable := da, spotlightCards := BuildSpotlights da cNew },
         cNew)

/-- `HeavenEarthView::BindContent`: stores the content (unmodelled),
clears the action rectangle (unmodelled) and resets the spotlight
pointer. Performs no compendium access. -/
def BindContent (v : HeavenEarthView) : HeavenEarthView :=
  { v with activePrimarySoulIndex := 0 }

/-- `HeavenEarthView::Deactivate`: clears the text cache, of which the
spotlight cards are the modelled part. Performs no compendium access. -/
def Deactivate (v : HeavenEarthView) : HeavenEarthView :=
  { v with spotlightCards := [] }

/-- `HeavenEarthView::Render`: issues draw calls from the prebuilt text
cache and stores the action rectangle (both unmodelled); it reads and
writes no modelled view state and performs no compendium access. -/
def Render (v : HeavenEarthView) : HeavenEarthView := v

/-- The status message written for a spotlight card by
`OnPrimaryAction`. -/
def spotMessage (card : SoulSpotlight) : String :=
  match card.soul with
  | some s =>
      "Codex spotlight: " ++ s.name ++ " (Grade " ++ toString s.grade
        ++ ") ready for briefing."
  | none => "Codex overview ready."

/-- The index `OnPrimaryAction` reads when the card list is non-empty:
an out-of-range `activePrimarySoulIndex_` is first clamped to 0. -/
def clampIndex (v : HeavenEarthView) : Nat :=
  if v.spotlightCards.length ≤ v.activePrimarySoulIndex then 0
  else v.activePrimarySoulIndex

/-- `HeavenEarthView::OnPrimaryAction`: with spotlight cards present,
read the card at the (clamped) pointer, emit its status message and
advance the pointer modulo the card count; otherwise emit one of the two
fallback messages. Returns the written status buffer and the updated
view. -/
def OnPrimaryAction (v : HeavenEarthView) : String × HeavenEarthView :=
  if v.spotlightCards.isEmpty then
    if v.dataAvailable then ("Martial soul compendium synchronized.", v)
    else ("No martial soul data available.", v)
  else
    let i := clampIndex v
    (spotMessage (v.spotlightCards.getD i { soul := none }),
     { v with activePrimarySoulIndex := (i + 1) % v.spotlightCards.length })

/-- The sequence of (clamped) spotlight indices read by a run of
successive `OnPrimaryAction` calls starting from `v`. -/
def readSeq : Nat → HeavenEarthView → List Nat
  | 0, _ => []
  | k + 1, v => clampIndex v :: readSeq k (OnPrimaryAction v).2

/-- The invariant a `HeavenEarthCompendium` satisfies after a successful
load: the loaded flag is set, the soul list is non-empty, and the stored
summary is the one computed from the stored souls. -/
def LoadedState (c : HeavenEarthCompendium) : Prop :=
  c.loaded = true ∧ c.souls ≠ [] ∧ c.summary = ComputeSummary c.souls

/-- The ranking order of `TopSouls` at claim level: grade strictly
higher first, ties in grade ordered by name (non-strict, since distinct
ranked souls may share grade and name). -/
def soulOrd (a b : MartialSoul) : Prop :=
  b.grade < a.grade ∨ (a.grade = b.grade ∧ strLe a.name b.name = true)

/-- The ranking order of the affinity histogram at claim level: strictly
larger count first, ties broken by strictly smaller (alphabetically
earlier) key. -/
def affOrd (p q : String × Nat) : Prop :=
  q.2 < p.2 ∨ (p.2 = q.2 ∧ strLt p.1 q.1 = true)

/- Concrete fixtures used by witness and counterexample theorems. -/

/-- A concrete soul record. -/
def fixtureSoulA : MartialSoul :=
  { name := "Azure Bull", grade := 9, category := "beast",
    affinities := ["Fire", "earth"], description := "a" }

/-- A concrete soul record. -/
def fixtureSoulB : MartialSoul :=
  { name := "Blue Silver Grass", grade := 3, category := "plant",
    affinities := ["FIRE"], description := "b" }

/-- A concrete loaded compendium satisfying `LoadedState`. -/
def fixtureCompendium : HeavenEarthCompendium :=
  { loaded := true, sourcePath := "data.json",
    souls := [fixtureSoulA, fixtureSoulB],
    summary := ComputeSummary [fixtureSoulA, fixtureSoulB] }

/-- A concrete well-formed JSON soul entry. -/
def fixtureEntryA : Json :=
  .obj [("name", .str "Azure Bull"), ("grade", .num 9),
        ("affinities", .arr [.str "Fire", .num 4, .str "earth"])]

/-- A concrete well-formed JSON soul entry. -/
def fixtureEntryB : Json :=
  .obj [("name", .str "Blue Silver Grass"), ("grade", .num 3)]

/-- A concrete entry with an empty name and typed fields: dropped by the
loader. -/
def fixtureEntryDropped : Json :=
  .obj [("name", .str ""), ("grade", .num 5)]

/-- A concrete filesystem whose default path resolves and holds a valid
one-soul document. -/
def fixtureFs : FileSystem :=
  { defaultPath := some "Heaven-and-Earth-main/data/martial_souls.json",
    contents := fun _ => .parsed (.arr [fixtureEntryB]) }

/-- A concrete document whose single soul has a negative grade. -/
def fixtureNegInput : FileInput :=
  .parsed (.arr [.obj [("name", .str "A"), ("grade", .num (-1))]])

/-- The compendium produced by loading `fixtureNegInput`. -/
def fixtureNegCompendium : HeavenEarthCompendium :=
  { loaded := true, sourcePath := "p",
    souls := [{ name := "A", grade := -1, category := "",
                affinities := [], description := "" }],
    summary := ComputeSummary [{ name := "A", grade := -1, category := "",
                                 affinities := [], description := "" }] }

/-- A concrete view state with three spotlight cards and an out-of-range
pointer. -/
def fixtureView : HeavenEarthView :=
  { dataAvailable := true,
    spotlightCards := [{ soul := some fixtureSoulA },
                       { soul := some fixtureSoulB }, { soul := none }],
    activePrimarySoulIndex := 7 }

/-! Order facts for the byte-wise string comparison. -/

theorem strLtList_irrefl (as : List Char) : strLtList as as = false := by
  induction as with
  | nil => rfl
  | cons a as ih => simp [strLtList, ih]

theorem strLtList_trans {as bs cs : List Char} (h1 : strLtList as bs = true)
    (h2 : strLtList bs cs = true) : strLtList as cs = true := by
  induction as generalizing bs cs with
  | nil =>
    cases bs with
    | nil => simp [strLtList] at h1
    | cons b bs =>
      cases cs with
      | nil => simp [strLtList] at h2
      | cons c cs => rfl
  | cons a as ih =>
    cases bs with
    | nil => simp [strLtList] at h1
    | cons b bs =>
      cases cs with
      | nil => simp [strLtList] at h2
      | cons c cs =>
        simp only [strLtList] at h1 h2 ⊢
        by_cases hab : a < b
        · by_cases hbc : b < c
          · simp [lt_trans hab hbc]
          · by_cases hcb : c < b
            · simp [hbc, hcb] at h2
            · have heq : b = c := le_antisymm (le_of_not_lt hcb) (le_of_not_lt hbc)
              subst heq
              simp [hab]
        · by_cases hba : b < a
          · simp [hab, hba] at h1
          · have heq : a = b := le_antisymm (le_of_not_lt hba) (le_of_not_lt hab)
            subst heq
            simp only [lt_irrefl, if_false] at h1
            by_cases hac : a < c
            · simp [hac]
            · by_cases hca : c < a
              · simp [hac, hca] at h2
              · simp only [hac, hca, if_false] at h2 ⊢
                exact ih h1 h2

theorem strLtList_eq_of_not_lt {as bs : List Char}
    (h1 : strLtList as bs = false) (h2 : strLtList bs as = false) : as = bs := by
  induction as generalizing bs with
  | nil =>
    cases bs with
    | nil => rfl
    | cons b bs => simp [strLtList] at h1
  | cons a as ih =>
    cases bs with
    | nil => simp [strLtList] at h2
    | cons b bs =>
      simp only [strLtList] at h1 h2
      by_cases hab : a < b
      · simp [hab] at h1
      · by_cases hba : b < a
        · simp [hba] at h2
        · have heq : a = b := le_antisymm (le_of_not_lt hba) (le_of_not_lt hab)
          subst heq
          simp only [lt_irrefl, if_false] at h1 h2
          rw [ih h1 h2]

theorem strLe_total (a b : String) : strLe a b = true ∨ strLe b a = true := by
  by_cases h1 : strLtList b.data a.data = true
  · right
    unfold strLe
    by_cases h2 : strLtList a.data b.data = true
    · have := strLtList_trans h1 h2
      rw [strLtList_irrefl] at this
      exact absurd this (by simp)
    · simp [Bool.not_eq_true] at h2
      simp [h2]
  · left
    simp [Bool.not_eq_true] at h1
    simp [strLe, h1]

theorem strLe_trans {a b c : String} (h1 : strLe a b = true)
    (h2 : strLe b c = true) : strLe a c = true := by
  simp only [strLe, Bool.not_eq_true', Bool.not_eq_true] at h1 h2 ⊢
  by_cases hca : strLtList c.data a.data = true
  · by_cases hab : strLtList a.data b.data = true
    · have := strLtList_trans hca hab
      rw [h2] at this
      exact absurd this (by simp)
    · simp [Bool.not_eq_true] at hab
      have heq := strLtList_eq_of_not_lt hab h1
      rw [← heq] at h2
      rw [h2] at hca
      exact absurd hca (by simp)
  · simpa [Bool.not_eq_true] using hca

theorem strLe_antisymm {a b : String} (h1 : strLe a b = true)
    (h2 : strLe b a = true) : a = b := by
  simp only [strLe, Bool.not_eq_true'] at h1 h2
  have hd := strLtList_eq_of_not_lt h2 h1
  cases a
  cases b
  exact congrArg String.mk hd

theorem strLt_of_strLe_of_ne {a b : String} (h1 : strLe a b = true)
    (h2 : a ≠ b) : strLt a b = true := by
  by_cases h3 : strLt a b = true
  · exact h3
  · simp only [strLt, Bool.not_eq_true] at h3
    simp only [strLe, Bool.not_eq_true'] at h1
    refine absurd ?_ h2
    have hd := strLtList_eq_of_not_lt h3 h1
    cases a
    cases b
    exact congrArg String.mk hd

/-! Facts about the insertion sort modelling `std::sort`. -/

theorem insertBy_perm {α : Type} (le : α → α → Bool) (a : α) (l : List α) :
    (insertBy le a l).Perm (a :: l) := by
  induction l with
  | nil => exact List.Perm.refl _
  | cons b bs ih =>
    by_cases h : le a b = true
    · simp [insertBy, h]
    · simp only [insertBy, h, if_false, Bool.false_eq_true]
      exact (List.Perm.cons b ih).trans (List.Perm.swap a b bs)

theorem sortBy_perm {α : Type} (le : α → α → Bool) (l : List α) :
    (sortBy le l).Perm l := by
  induction l with
  | nil => exact List.Perm.refl _
  | cons a as ih =>
    exact (insertBy_perm le a (sortBy le as)).trans (List.Perm.cons a ih)

theorem mem_insertBy {α : Type} {le : α → α → Bool} {a x : α} {l : List α} :
    x ∈ insertBy le a l ↔ x = a ∨ x ∈ l := by
  rw [(insertBy_perm le a l).mem_iff, List.mem_cons]

theorem insertBy_pairwise {α : Type} {le : α → α → Bool}
    (htot : ∀ a b, le a b = true ∨ le b a = true)
    (a : α) {l : List α} (hl : l.Pairwise (fun x y => le x y = true))
    (htrans : ∀ x y, le a x = true → le x y = true → le a y = true) :
    (insertBy le a l).Pairwise (fun x y => le x y = true) := by
  induction l with
  | nil => simp [insertBy]
  | cons b bs ih =>
    rw [List.pairwise_cons] at hl
    by_cases h : le a b = true
    · simp only [insertBy, h, if_true]
      rw [List.pairwise_cons]
      refine ⟨?_, List.pairwise_cons.mpr hl⟩
      intro x hx
      rcases List.mem_cons.mp hx with rfl | hx
      · exact h
      · exact htrans b x h (hl.1 x hx)
    · simp only [insertBy, h, if_false, Bool.false_eq_true]
      rw [List.pairwise_cons]
      constructor
      · intro x hx
        rcases mem_insertBy.mp hx with hxa | hx
        · rw [hxa]
          rcases htot a b with h1 | h1
          · exact absurd h1 h
          · exact h1
        · exact hl.1 x hx
      · exact ih hl.2

theorem sortBy_pairwise {α : Type} {le : α → α → Bool}
    (htot : ∀ a b, le a b = true ∨ le b a = true)
    (htrans : ∀ a b c, le a b = true → le b c = true → le a c = true)
    (l : List α) : (sortBy le l).Pairwise (fun x y => le x y = true) := by
  induction l with
  | nil => simp [sortBy]
  | cons a as ih =>
    exact insertBy_pairwise htot a ih (fun x y => htrans a x y)

theorem sortBy_length {α : Type} (le : α → α → Bool) (l : List α) :
    (sortBy le l).length = l.length :=
  (sortBy_perm le l).length_eq

/-! Facts about `distinctElems`. -/

theorem mem_distinctElems {α : Type} [DecidableEq α] {a : α} {l : List α} :
    a ∈ distinctElems l ↔ a ∈ l := by
  induction l with
  | nil => simp [distinctElems]
  | cons b bs ih =>
    by_cases h : b ∈ distinctElems bs
    · simp only [distinctElems, h, if_true, List.mem_cons, ih]
      constructor
      · exact Or.inr
      · rintro (rfl | hx)
        · exact ih.mp h
        · exact hx
    · simp [distinctElems, h, List.mem_cons, ih]

theorem nodup_distinctElems {α : Type} [DecidableEq α] (l : List α) :
    (distinctElems l).Nodup := by
  induction l with
  | nil => simp [distinctElems]
  | cons b bs ih =>
    by_cases h : b ∈ distinctElems bs
    · simpa [distinctElems, h] using ih
    · simp only [distinctElems, h, if_false]
      exact List.nodup_cons.mpr ⟨h, ih⟩

/-! Counting lemmas: summing the histogram over the distinct keys gives
back the length of the counted list. -/

theorem sum_map_const_zero {α : Type} (l : List α) :
    (l.map (fun _ => (0 : Nat))).sum = 0 := by
  induction l with
  | nil => rfl
  | cons a l ih => simpa using ih

theorem sum_map_add {α : Type} (f g : α → Nat) (l : List α) :
    (l.map (fun x => f x + g x)).sum = (l.map f).sum + (l.map g).sum := by
  induction l with
  | nil => rfl
  | cons a l ih =>
    simp only [List.map_cons, List.sum_cons, ih]
    omega

theorem sum_map_indicator_zero {α : Type} [DecidableEq α] {a : α}
    {d : List α} (h : a ∉ d) :
    (d.map (fun x => if x = a then (1 : Nat) else 0)).sum = 0 := by
  induction d with
  | nil => rfl
  | cons b d ih =>
    rw [List.mem_cons] at h
    push_neg at h
    have hba : b ≠ a := fun hh => h.1 hh.symm
    simp only [List.map_cons, List.sum_cons, if_neg hba, ih h.2]

theorem sum_map_indicator_one {α : Type} [DecidableEq α] {a : α}
    {d : List α} (hnd : d.Nodup) (ha : a ∈ d) :
    (d.map (fun x => if x = a then (1 : Nat) else 0)).sum = 1 := by
  induction d with
  | nil => simp at ha
  | cons b d ih =>
    rw [List.nodup_cons] at hnd
    rcases List.mem_cons.mp ha with rfl | ha
    · rw [List.map_cons, List.sum_cons, sum_map_indicator_zero hnd.1]
      simp
    · have hba : b ≠ a := fun hh => hnd.1 (hh ▸ ha)
      simp only [List.map_cons, List.sum_cons, if_neg hba, ih hnd.2 ha]

theorem sum_counts {α : Type} [DecidableEq α] (l d : List α) (hnd : d.Nodup)
    (hsub : ∀ x ∈ l, x ∈ d) :
    (d.map (fun x => l.count x)).sum = l.length := by
  induction l with
  | nil => simpa [List.count_nil] using sum_map_const_zero d
  | cons a l ih =>
    have hstep : d.map (fun x => (a :: l).count x)
        = d.map (fun x => l.count x + if x = a then 1 else 0) := by
      refine List.map_congr_left (fun x hx => ?_)
      rw [List.count_cons]
      by_cases hax : x = a
      · subst hax
        simp
      · have hax2 : ¬(a = x) := fun hh => hax hh.symm
        simp [hax, hax2]
    rw [hstep, sum_map_add,
      ih (fun x hx => hsub x (List.mem_cons_of_mem a hx)),
      sum_map_indicator_one hnd (hsub a (List.mem_cons_self a l))]
    simp

/-! Totality and transitivity of the sort comparators, and the passage
from the non-strict sorted order to the strict claim-level order on
distinct keys. -/

theorem gradePairLe_total (p q : Int × Nat) :
    decide (q.1 ≤ p.1) = true ∨ decide (p.1 ≤ q.1) = true := by
  simp only [decide_eq_true_eq]
  exact (le_total q.1 p.1)

theorem gradePairLe_trans {p q r : Int × Nat}
    (h1 : decide (q.1 ≤ p.1) = true) (h2 : decide (r.1 ≤ q.1) = true) :
    decide (r.1 ≤ p.1) = true := by
  simp only [decide_eq_true_eq] at h1 h2 ⊢
  exact le_trans h2 h1

theorem affinityPairLe_total (p q : String × Nat) :
    affinityPairLe p q = true ∨ affinityPairLe q p = true := by
  unfold affinityPairLe
  by_cases h : p.2 = q.2
  · have h2 : ¬(q.2 ≠ p.2) := by omega
    have h1 : ¬(p.2 ≠ q.2) := by omega
    rw [if_neg h1, if_neg h2]
    exact strLe_total p.1 q.1
  · have h2 : q.2 ≠ p.2 := fun hh => h hh.symm
    rw [if_pos h, if_pos h2]
    simp only [decide_eq_true_eq]
    omega

theorem affinityPairLe_trans {p q r : String × Nat}
    (h1 : affinityPairLe p q = true) (h2 : affinityPairLe q r = true) :
    affinityPairLe p r = true := by
  unfold affinityPairLe at h1 h2 ⊢
  by_cases hpq : p.2 = q.2
  · rw [if_neg (by omega)] at h1
    by_cases hqr : q.2 = r.2
    · rw [if_neg (by omega)] at h2
      rw [if_neg (by omega)]
      exact strLe_trans h1 h2
    · rw [if_pos hqr] at h2
      simp only [decide_eq_true_eq] at h2
      rw [if_pos (by omega)]
      simp only [decide_eq_true_eq]
      omega
  · rw [if_pos hpq] at h1
    simp only [decide_eq_true_eq] at h1
    by_cases hqr : q.2 = r.2
    · rw [if_pos (by omega)]
      simp only [decide_eq_true_eq]
      omega
    · rw [if_pos hqr] at h2
      simp only [decide_eq_true_eq] at h2
      rw [if_pos (by omega)]
      simp only [decide_eq_true_eq]
      omega

theorem soulLe_total (a b : MartialSoul) :
    soulLe a b = true ∨ soulLe b a = true := by
  unfold soulLe
  by_cases h : a.grade = b.grade
  · rw [if_neg (by omega), if_neg (by omega)]
    exact strLe_total a.name b.name
  · by_cases h2 : a.grade < b.grade
    · right
      rw [if_pos (by omega)]
      simp only [decide_eq_true_eq]
      omega
    · left
      rw [if_pos h]
      simp only [decide_eq_true_eq]
      omega

theorem soulLe_trans {a b c : MartialSoul} (h1 : soulLe a b = true)
    (h2 : soulLe b c = true) : soulLe a c = true := by
  unfold soulLe at h1 h2 ⊢
  by_cases hab : a.grade = b.grade
  · rw [if_neg (by omega)] at h1
    by_cases hbc : b.grade = c.grade
    · rw [if_neg (by omega)] at h2
      rw [if_neg (by omega)]
      exact strLe_trans h1 h2
    · rw [if_pos hbc] at h2
      simp only [decide_eq_true_eq] at h2
      rw [if_pos (by omega)]
      simp only [decide_eq_true_eq]
      omega
  · rw [if_pos hab] at h1
    simp only [decide_eq_true_eq] at h1
    by_cases hbc : b.grade = c.grade
    · rw [if_pos (by omega)]
      simp only [decide_eq_true_eq]
      omega
    · rw [if_pos hbc] at h2
      simp only [decide_eq_true_eq] at h2
      rw [if_pos (by omega)]
      simp only [decide_eq_true_eq]
      omega

theorem pairwise_gradeStrict {l : List (Int × Nat)}
    (hp : l.Pairwise (fun p q => decide (q.1 ≤ p.1) = true))
    (hn : (l.map Prod.fst).Nodup) :
    l.Pairwise (fun p q => q.1 < p.1) := by
  have hne : l.Pairwise (fun p q => p.1 ≠ q.1) := List.pairwise_map.mp hn
  refine (hp.and hne).imp ?_
  rintro a b ⟨h1, h2⟩
  simp only [decide_eq_true_eq] at h1
  exact lt_of_le_of_ne h1 (fun hh => h2 hh.symm)

theorem pairwise_affStrict {l : List (String × Nat)}
    (hp : l.Pairwise (fun p q => affinityPairLe p q = true))
    (hn : (l.map Prod.fst).Nodup) :
    l.Pairwise affOrd := by
  have hne : l.Pairwise (fun p q => p.1 ≠ q.1) := List.pairwise_map.mp hn
  refine (hp.and hne).imp ?_
  rintro a b ⟨h1, h2⟩
  unfold affinityPairLe at h1
  unfold affOrd
  by_cases hc : a.2 = b.2
  · rw [if_neg (by omega)] at h1
    exact Or.inr ⟨hc, strLt_of_strLe_of_ne h1 h2⟩
  · rw [if_pos hc] at h1
    simp only [decide_eq_true_eq] at h1
    exact Or.inl h1

theorem pairwise_soulOrd {l : List MartialSoul}
    (hp : l.Pairwise (fun a b => soulLe a b = true)) :
    l.Pairwise soulOrd := by
  refine hp.imp ?_
  intro a b h1
  unfold soulLe at h1
  unfold soulOrd
  by_cases hg : a.grade = b.grade
  · rw [if_neg (by omega)] at h1
    exact Or.inr ⟨hg, h1⟩
  · rw [if_pos hg] at h1
    simp only [decide_eq_true_eq] at h1
    exact Or.inl h1

/-! Field-extraction lemmas: typed fields never throw. -/

theorem valueStr_of_found {fields : List (String × Json)} {key : String}
    {s : String} (hf : findField fields key = some (.str s)) (dflt : String) :
    valueStr fields dflt key = .ok s := by
  unfold valueStr
  rw [hf]

theorem valueStr_of_missing {fields : List (String × Json)} {key : String}
    (hf : findField fields key = none) (dflt : String) :
    valueStr fields dflt key = .ok dflt := by
  unfold valueStr
  rw [hf]

theorem valueStr_ok {fields : List (String × Json)} {key : String}
    (h : strFieldOk fields key = true) (dflt : String) :
    ∃ v, valueStr fields dflt key = .ok v := by
  unfold strFieldOk at h
  unfold valueStr
  cases hf : findField fields key with
  | none => exact ⟨dflt, rfl⟩
  | some j =>
    rw [hf] at h
    cases j with
    | str s => exact ⟨s, rfl⟩
    | null => simp at h
    | bool b => simp at h
    | num n => simp at h
    | arr elems => simp at h
    | obj fs => simp at h

theorem valueInt_ok {fields : List (String × Json)} {key : String}
    (h : intFieldOk fields key = true) (dflt : Int) :
    ∃ v, valueInt fields dflt key = .ok v := by
  unfold intFieldOk at h
  unfold valueInt
  cases hf : findField fields key with
  | none => exact ⟨dflt, rfl⟩
  | some j =>
    rw [hf] at h
    cases j with
    | num n => exact ⟨n, rfl⟩
    | bool b => exact ⟨if b then 1 else 0, rfl⟩
    | null => simp at h
    | str s => simp at h
    | arr elems => simp at h
    | obj fs => simp at h

/-! Entry-loop lemmas. -/

theorem parseEntry_wellFormed {e : Json} (h : wellFormed e = true) :
    ∃ s : MartialSoul, parseEntry e = .ok (some s) := by
  cases e with
  | obj fields =>
    simp only [wellFormed, Bool.and_eq_true] at h
    obtain ⟨⟨⟨hname, hgrade⟩, hcat⟩, hdesc⟩ := h
    obtain ⟨g, hg⟩ := valueInt_ok hgrade 0
    obtain ⟨cat, hcatv⟩ := valueStr_ok hcat ""
    obtain ⟨desc, hdescv⟩ := valueStr_ok hdesc ""
    cases hf : findField fields "name" with
    | none =>
      rw [hf] at hname
      exact absurd hname (by simp)
    | some j =>
      rw [hf] at hname
      cases j with
      | str s =>
        simp only [decide_eq_true_eq] at hname
        refine ⟨{ name := s, grade := g, category := cat,
                  affinities := parseAffinities fields, description := desc }, ?_⟩
        simp only [parseEntry, valueStr_of_found hf "", hg, hcatv, hdescv,
          if_neg hname]
      | null => simp at hname
      | bool b => simp at hname
      | num n => simp at hname
      | arr elems => simp at hname
      | obj fs => simp at hname
  | null => simp [wellFormed] at h
  | bool b => simp [wellFormed] at h
  | num n => simp [wellFormed] at h
  | str s => simp [wellFormed] at h
  | arr elems => simp [wellFormed] at h

theorem parseEntry_dropped {e : Json} (ht : typedEntry e = true)
    (hd : droppedName e = true) : parseEntry e = .ok none := by
  cases e with
  | obj fields =>
    simp only [typedEntry, Bool.and_eq_true] at ht
    obtain ⟨⟨⟨hname, hgrade⟩, hcat⟩, hdesc⟩ := ht
    obtain ⟨g, hg⟩ := valueInt_ok hgrade 0
    obtain ⟨cat, hcatv⟩ := valueStr_ok hcat ""
    obtain ⟨desc, hdescv⟩ := valueStr_ok hdesc ""
    simp only [droppedName] at hd
    cases hf : findField fields "name" with
    | none =>
      simp [parseEntry, valueStr_of_missing hf "", hg, hcatv, hdescv]
    | some j =>
      rw [hf] at hd
      cases j with
      | str s =>
        have hs : s = "" := by simpa using hd
        subst hs
        simp [parseEntry, valueStr_of_found hf "", hg, hcatv, hdescv]
      | null => simp at hd
      | bool b => simp at hd
      | num n => simp at hd
      | arr elems => simp at hd
      | obj fs => simp at hd
  | null => simp [droppedName] at hd
  | bool b => simp [droppedName] at hd
  | num n => simp [droppedName] at hd
  | str s => simp [droppedName] at hd
  | arr elems => simp [droppedName] at hd

theorem parseEntries_all_wf {es : List Json}
    (h : ∀ e ∈ es, wellFormed e = true) :
    ∃ souls : List MartialSoul, parseEntries es = .ok souls
      ∧ souls.length = es.length
      ∧ ∀ (i : Nat) (h1 : i < es.length) (h2 : i < souls.length),
          parseEntry (es.get ⟨i, h1⟩) = .ok (some (souls.get ⟨i, h2⟩)) := by
  induction es with
  | nil => exact ⟨[], rfl, rfl, fun i h1 _ => absurd h1 (by simp)⟩
  | cons e es ih =>
    obtain ⟨s, hs⟩ := parseEntry_wellFormed (h e (List.mem_cons_self e es))
    obtain ⟨souls, hsouls, hlen, hpt⟩ :=
      ih (fun x hx => h x (List.mem_cons_of_mem e hx))
    refine ⟨s :: souls, ?_, by simpa using hlen, ?_⟩
    · simp only [parseEntries, hs, hsouls]
    · intro i h1 h2
      cases i with
      | zero => simpa using hs
      | succ n => exact hpt n (by simpa using h1) (by simpa using h2)

theorem parseEntries_drop_middle {e : Json} (he : parseEntry e = .ok none)
    (xs ys : List Json) :
    parseEntries (xs ++ e :: ys) = parseEntries (xs ++ ys) := by
  induction xs with
  | nil => simp only [List.nil_append, parseEntries, he]
  | cons x xs ih =>
    have ih2 : parseEntries (xs.append (e :: ys)) = parseEntries (xs.append ys) := ih
    simp only [List.cons_append, parseEntries, ih2]

theorem loadFromFile_parsed_arr (c : HeavenEarthCompendium) (fp : String)
    {entries : List Json} {souls : List MartialSoul}
    (h : parseEntries entries = .ok souls) (hne : souls ≠ []) :
    LoadFromFile c fp (.parsed (.arr entries))
      = .ok (true, { loaded := true, sourcePath := fp, souls := souls,
                     summary := ComputeSummary souls }) := by
  simp only [LoadFromFile, h]
  rw [if_neg (by simpa [List.isEmpty_iff] using hne)]

/-- A successful `LoadFromFile` establishes the loaded-state
invariant. -/
theorem loadedState_of_ok {c st : HeavenEarthCompendium} {fp : String}
    {input : FileInput}
    (h : LoadFromFile c fp input = .ok (true, st)) : LoadedState st := by
  cases input with
  | unreadable => simp [LoadFromFile] at h
  | parseError => simp [LoadFromFile] at h
  | parsed doc =>
    cases doc with
    | arr entries =>
      cases hp : parseEntries entries with
      | error u => simp [LoadFromFile, hp] at h
      | ok souls =>
        simp only [LoadFromFile, hp] at h
        by_cases hne : souls.isEmpty = true
        · rw [if_pos hne] at h
          simp at h
        · rw [if_neg hne] at h
          simp only [Except.ok.injEq, Prod.mk.injEq, true_and] at h
          subst h
          refine ⟨rfl, ?_, rfl⟩
          simpa [List.isEmpty_iff] using hne
    | null => simp [LoadFromFile] at h
    | bool b => simp [LoadFromFile] at h
    | num n => simp [LoadFromFile] at h
    | str s => simp [LoadFromFile] at h
    | obj fields => simp [LoadFromFile] at h

/-- C1: whenever `LoadFromFile` fails for one of the spec reasons
(unreadable file, invalid JSON, non-array document, or zero valid
entries), it returns `false` and leaves the compendium in the empty
reset state: not loaded, no souls, empty source path, default
summary. -/
theorem loadFromFile_failure_resets (c : HeavenEarthCompendium)
    (filePath : String) (input : FileInput) (h : FailInput input) :
    LoadFromFile c filePath input = .ok (false, emptyCompendium)
    ∧ IsLoaded emptyCompendium = false
    ∧ Souls emptyCompendium = []
    ∧ SourcePath emptyCompendium = ""
    ∧ Summary emptyCompendium = defaultSummary := by
  refine ⟨?_, rfl, rfl, rfl, rfl⟩
  cases input with
  | unreadable => rfl
  | parseError => rfl
  | parsed doc =>
    cases doc with
    | arr entries =>
      simp only [FailInput] at h
      simp only [LoadFromFile, h]
      rfl
    | null => rfl
    | bool b => rfl
    | num n => rfl
    | str s => rfl
    | obj fields => rfl

/-- Witness for C1 at a concrete input: loading an unreadable path over
a previously loaded compendium fails and empties the state. -/
theorem loadFromFile_failure_resets_witness :
    FailInput .unreadable
    ∧ (LoadFromFile fixtureCompendium "missing.json" .unreadable
          = .ok (false, emptyCompendium)
        ∧ IsLoaded emptyCompendium = false
        ∧ Souls emptyCompendium = []
        ∧ SourcePath emptyCompendium = ""
        ∧ Summary emptyCompendium = defaultSummary) :=
  ⟨trivial,
   loadFromFile_failure_resets fixtureCompendium "missing.json" .unreadable trivial⟩

/-- C2: loading an array of well-formed soul entries succeeds and yields
exactly one soul record per entry, in file order, with
`Summary().totalSouls` equal to the entry count. -/
theorem loadFromFile_wellFormed_loads (c : HeavenEarthCompendium)
    (filePath : String) (es : List Json) (hne : es ≠ [])
    (hwf : ∀ e ∈ es, wellFormed e = true) :
    ∃ st : HeavenEarthCompendium,
      LoadFromFile c filePath (.parsed (.arr es)) = .ok (true, st)
      ∧ IsLoaded st = true
      ∧ (Souls st).length = es.length
      ∧ (Summary st).totalSouls = es.length
      ∧ ∀ (i : Nat) (h1 : i < es.length) (h2 : i < (Souls st).length),
          parseEntry (es.get ⟨i, h1⟩) = .ok (some ((Souls st).get ⟨i, h2⟩)) := by
  obtain ⟨souls, hsouls, hlen, hpt⟩ := parseEntries_all_wf hwf
  have hsne : souls ≠ [] := by
    intro hh
    subst hh
    exact hne (List.length_eq_zero.mp hlen.symm)
  refine ⟨_, loadFromFile_parsed_arr c filePath hsouls hsne, rfl, ?_, ?_, ?_⟩
  · simpa [Souls] using hlen
  · show (ComputeSummary souls).totalSouls = es.length
    unfold ComputeSummary
    rw [if_neg (by simpa [List.isEmpty_iff] using hsne)]
    simpa using hlen
  · intro i h1 h2
    exact hpt i h1 h2

/-- Witness for C2 at a concrete two-entry document. -/
theorem loadFromFile_wellFormed_loads_witness :
    (([fixtureEntryA, fixtureEntryB] : List Json) ≠ []
      ∧ ∀ e ∈ ([fixtureEntryA, fixtureEntryB] : List Json), wellFormed e = true)
    ∧ ∃ st : HeavenEarthCompendium,
        LoadFromFile emptyCompendium "souls.json"
            (.parsed (.arr [fixtureEntryA, fixtureEntryB])) = .ok (true, st)
        ∧ IsLoaded st = true
        ∧ (Souls st).length = ([fixtureEntryA, fixtureEntryB] : List Json).length
        ∧ (Summary st).totalSouls = ([fixtureEntryA, fixtureEntryB] : List Json).length
        ∧ ∀ (i : Nat) (h1 : i < ([fixtureEntryA, fixtureEntryB] : List Json).length)
            (h2 : i < (Souls st).length),
            parseEntry (([fixtureEntryA, fixtureEntryB] : List Json).get ⟨i, h1⟩)
              = .ok (some ((Souls st).get ⟨i, h2⟩)) :=
  ⟨⟨by simp, by decide⟩,
   loadFromFile_wellFormed_loads emptyCompendium "souls.json"
     [fixtureEntryA, fixtureEntryB] (by simp) (by decide)⟩

/-- C4: an array entry with typed fields whose name is missing or empty
is dropped: deleting it from the document leaves the entire result of
`LoadFromFile` unchanged, so it contributes no soul record and no
summary counts while all other entries load as before. -/
theorem loadFromFile_drops_unnamed (c : HeavenEarthCompendium)
    (filePath : String) (xs ys : List Json) (e : Json)
    (ht : typedEntry e = true) (hd : droppedName e = true) :
    LoadFromFile c filePath (.parsed (.arr (xs ++ e :: ys)))
      = LoadFromFile c filePath (.parsed (.arr (xs ++ ys))) := by
  simp only [LoadFromFile,
    parseEntries_drop_middle (parseEntry_dropped ht hd) xs ys]

/-- Witness for C4 at a concrete document: dropping the empty-named
middle entry leaves the load result unchanged. -/
theorem loadFromFile_drops_unnamed_witness :
    (typedEntry fixtureEntryDropped = true ∧ droppedName fixtureEntryDropped = true)
    ∧ LoadFromFile emptyCompendium "souls.json"
        (.parsed (.arr ([fixtureEntryA] ++ fixtureEntryDropped :: [fixtureEntryB])))
      = LoadFromFile emptyCompendium "souls.json"
        (.parsed (.arr ([fixtureEntryA] ++ [fixtureEntryB]))) :=
  ⟨⟨by decide, by decide⟩,
   loadFromFile_drops_unnamed emptyCompendium "souls.json"
     [fixtureEntryA] [fixtureEntryB] fixtureEntryDropped (by decide) (by decide)⟩

/-! Histogram lemmas shared by the grade and affinity rankings. -/

theorem intBeq_eq_decide (a b : Int) : (a == b) = decide (a = b) := by
  by_cases h : a = b
  · subst h
    simp
  · simp [h]

theorem count_grade_eq_filter (souls : List MartialSoul) (g : Int) :
    (souls.map (fun s => s.grade)).count g
      = (souls.filter (fun s => decide (s.grade = g))).length := by
  rw [List.count_eq_countP, List.countP_map, List.countP_eq_length_filter]
  refine congrArg List.length (List.filter_congr ?_)
  intro s _
  exact intBeq_eq_decide s.grade g

theorem sortBy_histogram_mem {α : Type} [DecidableEq α]
    (le : (α × Nat) → (α × Nat) → Bool) (l : List α) (g : α) (n : Nat) :
    ((g, n) ∈ sortBy le ((distinctElems l).map (fun k => (k, l.count k)))
      ↔ g ∈ l ∧ n = l.count g) := by
  rw [(sortBy_perm le _).mem_iff, List.mem_map]
  constructor
  · rintro ⟨k, hk, heq⟩
    cases heq
    exact ⟨mem_distinctElems.mp hk, rfl⟩
  · rintro ⟨hg, rfl⟩
    exact ⟨g, mem_distinctElems.mpr hg, rfl⟩

theorem sortBy_histogram_nodup_keys {α : Type} [DecidableEq α]
    (le : (α × Nat) → (α × Nat) → Bool) (l : List α) :
    ((sortBy le ((distinctElems l).map (fun k => (k, l.count k)))).map
      Prod.fst).Nodup := by
  have hperm :=
    ((sortBy_perm le ((distinctElems l).map (fun k => (k, l.count k)))).map Prod.fst)
  refine hperm.nodup_iff.mpr ?_
  rw [List.map_map]
  have hcomp : (Prod.fst ∘ fun k : α => (k, l.count k)) = @id α := rfl
  rw [hcomp, List.map_id]
  exact nodup_distinctElems l

theorem sortBy_histogram_sum {α : Type} [DecidableEq α]
    (le : (α × Nat) → (α × Nat) → Bool) (l : List α) :
    ((sortBy le ((distinctElems l).map (fun k => (k, l.count k)))).map
      (fun p => p.2)).sum = l.length := by
  have hperm :=
    ((sortBy_perm le ((distinctElems l).map (fun k => (k, l.count k)))).map
      (fun p : α × Nat => p.2))
  rw [hperm.sum_eq, List.map_map]
  have hcomp : ((fun p : α × Nat => p.2) ∘ fun k => (k, l.count k))
      = fun k => l.count k := rfl
  rw [hcomp]
  exact sum_counts l (distinctElems l) (nodup_distinctElems l)
    (fun x hx => mem_distinctElems.mpr hx)

/-- Reduction of `ComputeSummary` on a non-empty soul list to its
explicit record form. -/
theorem computeSummary_reduce {souls : List MartialSoul} (hne : souls ≠ []) :
    ComputeSummary souls =
      { totalSouls := souls.length
        rareSouls := (souls.filter (fun s => decide (7 ≤ s.grade))).length
        highestGrade := (souls.foldl hgStep (0, "")).1
        highestSoulName := (souls.foldl hgStep (0, "")).2
        affinityNames := sortBy strLe (distinctElems (affinityKeyStream souls))
        gradeCounts := sortBy (fun p q => decide (q.1 ≤ p.1))
          ((distinctElems (souls.map (fun s => s.grade))).map
            (fun g => (g, (souls.map (fun s => s.grade)).count g)))
        affinityCounts := sortBy affinityPairLe
          ((distinctElems (affinityKeyStream souls)).map
            (fun k => (k, (affinityKeyStream souls).count k))) } := by
  unfold ComputeSummary
  rw [if_neg (by simpa [List.isEmpty_iff] using hne)]

/-- C5: for a loaded compendium, the grade histogram (also returned by
`GradeCountsDescending`) contains exactly one entry per distinct grade,
carrying the number of loaded souls with that grade; it is sorted in
strictly descending grade order; and its counts sum to
`Summary().totalSouls`, which is the number of loaded souls. -/
theorem gradeHistogram_spec (c : HeavenEarthCompendium) (h : LoadedState c) :
    GradeCountsDescending c = (Summary c).gradeCounts
    ∧ (∀ (g : Int) (n : Nat),
        ((g, n) ∈ (Summary c).gradeCounts
          ↔ (∃ s ∈ c.souls, s.grade = g)
            ∧ n = (c.souls.filter (fun s => decide (s.grade = g))).length))
    ∧ (Summary c).gradeCounts.Pairwise (fun p q => q.1 < p.1)
    ∧ ((Summary c).gradeCounts.map (fun p => p.2)).sum = (Summary c).totalSouls
    ∧ (Summary c).totalSouls = c.souls.length := by
  obtain ⟨hl, hne, hsum⟩ := h
  have hred : Summary c = ComputeSummary c.souls := hsum
  rw [computeSummary_reduce hne] at hred
  refine ⟨?_, ?_, ?_, ?_, ?_⟩
  · show c.summary.gradeCounts = (Summary c).gradeCounts
    rfl
  · intro g n
    rw [hred]
    rw [sortBy_histogram_mem]
    rw [count_grade_eq_filter]
    constructor
    · rintro ⟨hg, rfl⟩
      obtain ⟨s, hs, hsg⟩ := List.mem_map.mp hg
      exact ⟨⟨s, hs, hsg⟩, rfl⟩
    · rintro ⟨⟨s, hs, hsg⟩, rfl⟩
      exact ⟨List.mem_map.mpr ⟨s, hs, hsg⟩, rfl⟩
  · rw [hred]
    exact pairwise_gradeStrict
      (sortBy_pairwise gradePairLe_total (fun a b c h1 h2 => gradePairLe_trans h1 h2) _)
      (sortBy_histogram_nodup_keys _ _)
  · rw [hred]
    rw [sortBy_histogram_sum]
    simp
  · rw [hred]

/-- Witness for C5 at a concrete loaded compendium. -/
theorem gradeHistogram_spec_witness :
    LoadedState fixtureCompendium
    ∧ (GradeCountsDescending fixtureCompendium
          = (Summary fixtureCompendium).gradeCounts
      ∧ (∀ (g : Int) (n : Nat),
          ((g, n) ∈ (Summary fixtureCompendium).gradeCounts
            ↔ (∃ s ∈ fixtureCompendium.souls, s.grade = g)
              ∧ n = (fixtureCompendium.souls.filter
                  (fun s => decide (s.grade = g))).length))
      ∧ (Summary fixtureCompendium).gradeCounts.Pairwise (fun p q => q.1 < p.1)
      ∧ ((Summary fixtureCompendium).gradeCounts.map (fun p => p.2)).sum
          = (Summary fixtureCompendium).totalSouls
      ∧ (Summary fixtureCompendium).totalSouls
          = fixtureCompendium.souls.length) :=
  ⟨⟨rfl, by simp [fixtureCompendium], rfl⟩,
   gradeHistogram_spec fixtureCompendium ⟨rfl, by simp [fixtureCompendium], rfl⟩⟩

/-! Strict-order facts for the claim-level affinity ranking order, and
uniqueness of sorted lists. -/

theorem affOrd_asymm {p q : String × Nat} (h1 : affOrd p q) (h2 : affOrd q p) :
    False := by
  rcases h1 with h1 | ⟨he1, h1⟩ <;> rcases h2 with h2 | ⟨he2, h2⟩
  · omega
  · omega
  · omega
  · unfold strLt at h1 h2
    have := strLtList_trans h1 h2
    rw [strLtList_irrefl] at this
    exact absurd this (by simp)

theorem affOrd_irrefl (p : String × Nat) : ¬affOrd p p :=
  fun h => affOrd_asymm h h

theorem nodup_of_pairwise_irrefl {α : Type} {R : α → α → Prop}
    (hirr : ∀ a, ¬R a a) {l : List α} (hp : l.Pairwise R) : l.Nodup := by
  refine hp.imp ?_
  intro a b hab he
  exact hirr b (he ▸ hab)

theorem perm_of_nodup_mem_iff {α : Type} {l1 l2 : List α}
    (h1 : l1.Nodup) (h2 : l2.Nodup) (hm : ∀ x, x ∈ l1 ↔ x ∈ l2) :
    l1.Perm l2 :=
  (h1.subperm (fun x hx => (hm x).mp hx)).antisymm
    (h2.subperm (fun x hx => (hm x).mpr hx))

/-- C6: for a loaded compendium, `TopAffinities(N)` is the prefix of the
affinity histogram of length `min N (number of distinct affinities)`;
the histogram is sorted by strictly descending count with ties broken
alphabetically by key, carries the occurrence count of each distinct
normalised affinity, and is the unique list with those entries in that
order, so the ranking is deterministic for a given dataset. -/
theorem topAffinities_spec (c : HeavenEarthCompendium) (N : Nat)
    (h : LoadedState c) :
    TopAffinities c N = (Summary c).affinityCounts.take N
    ∧ (TopAffinities c N).length = min N (Summary c).affinityCounts.length
    ∧ (Summary c).affinityCounts.Pairwise affOrd
    ∧ (∀ (k : String) (m : Nat),
        ((k, m) ∈ (Summary c).affinityCounts
          ↔ k ∈ affinityKeyStream c.souls
            ∧ m = (affinityKeyStream c.souls).count k))
    ∧ ∀ l : List (String × Nat), l.Pairwise affOrd →
        (∀ p, p ∈ l ↔ p ∈ (Summary c).affinityCounts) →
        l = (Summary c).affinityCounts := by
  obtain ⟨hl, hne, hsum⟩ := h
  have hred : Summary c = ComputeSummary c.souls := hsum
  rw [computeSummary_reduce hne] at hred
  have hpw : (Summary c).affinityCounts.Pairwise affOrd := by
    rw [hred]
    exact pairwise_affStrict
      (sortBy_pairwise affinityPairLe_total
        (fun a b c h1 h2 => affinityPairLe_trans h1 h2) _)
      (sortBy_histogram_nodup_keys _ _)
  refine ⟨rfl, ?_, hpw, ?_, ?_⟩
  · show ((Summary c).affinityCounts.take N).length = _
    rw [List.length_take]
  · intro k m
    rw [hred]
    exact sortBy_histogram_mem _ _ k m
  · intro l hpl hml
    haveI : IsAntisymm (String × Nat) affOrd :=
      ⟨fun a b ha hb => (affOrd_asymm ha hb).elim⟩
    have hs1 : List.Sorted affOrd l := hpl
    have hs2 : List.Sorted affOrd (Summary c).affinityCounts := hpw
    exact List.eq_of_perm_of_sorted
      (perm_of_nodup_mem_iff (nodup_of_pairwise_irrefl affOrd_irrefl hpl)
        (nodup_of_pairwise_irrefl affOrd_irrefl hpw) hml)
      hs1 hs2

/-- Witness for C6 at a concrete loaded compendium and count. -/
theorem topAffinities_spec_witness :
    LoadedState fixtureCompendium
    ∧ (TopAffinities fixtureCompendium 2
          = (Summary fixtureCompendium).affinityCounts.take 2
      ∧ (TopAffinities fixtureCompendium 2).length
          = min 2 (Summary fixtureCompendium).affinityCounts.length
      ∧ (Summary fixtureCompendium).affinityCounts.Pairwise affOrd
      ∧ (∀ (k : String) (m : Nat),
          ((k, m) ∈ (Summary fixtureCompendium).affinityCounts
            ↔ k ∈ affinityKeyStream fixtureCompendium.souls
              ∧ m = (affinityKeyStream fixtureCompendium.souls).count k))
      ∧ ∀ l : List (String × Nat), l.Pairwise affOrd →
          (∀ p, p ∈ l ↔ p ∈ (Summary fixtureCompendium).affinityCounts) →
          l = (Summary fixtureCompendium).affinityCounts) :=
  ⟨⟨rfl, by simp [fixtureCompendium], rfl⟩,
   topAffinities_spec fixtureCompendium 2 ⟨rfl, by simp [fixtureCompendium], rfl⟩⟩

/-- C7: for a loaded compendium, `TopSouls(N)` is the `N`-prefix of a
ranking that is a permutation of the loaded souls ordered by strictly
descending grade with ties ordered by name; it has
`min N (number of souls)` entries, each of which is a loaded soul. -/
theorem topSouls_spec (c : HeavenEarthCompendium) (N : Nat)
    (h : LoadedState c) :
    TopSouls c N = (sortBy soulLe (Souls c)).take N
    ∧ (sortBy soulLe (Souls c)).Perm (Souls c)
    ∧ (sortBy soulLe (Souls c)).Pairwise soulOrd
    ∧ (TopSouls c N).length = min N (Souls c).length
    ∧ ∀ s ∈ TopSouls c N, s ∈ Souls c := by
  refine ⟨rfl, sortBy_perm soulLe c.souls, ?_, ?_, ?_⟩
  · exact pairwise_soulOrd
      (sortBy_pairwise soulLe_total (fun a b c h1 h2 => soulLe_trans h1 h2) _)
  · show ((sortBy soulLe c.souls).take N).length = _
    rw [List.length_take, sortBy_length]
    rfl
  · intro s hs
    exact (sortBy_perm soulLe c.souls).mem_iff.mp
      ((List.take_sublist N (sortBy soulLe c.souls)).mem hs)

/-- Witness for C7 at a concrete loaded compendium and count. -/
theorem topSouls_spec_witness :
    LoadedState fixtureCompendium
    ∧ (TopSouls fixtureCompendium 1
          = (sortBy soulLe (Souls fixtureCompendium)).take 1
      ∧ (sortBy soulLe (Souls fixtureCompendium)).Perm (Souls fixtureCompendium)
      ∧ (sortBy soulLe (Souls fixtureCompendium)).Pairwise soulOrd
      ∧ (TopSouls fixtureCompendium 1).length
          = min 1 (Souls fixtureCompendium).length
      ∧ ∀ s ∈ TopSouls fixtureCompendium 1, s ∈ Souls fixtureCompendium) :=
  ⟨⟨rfl, by simp [fixtureCompendium], rfl⟩,
   topSouls_spec fixtureCompendium 1 ⟨rfl, by simp [fixtureCompendium], rfl⟩⟩

/-! The highest-grade scan. The accumulator starts at `(0, "")`, so the
final grade is the maximum of 0 and all soul grades, and the final name
is the last soul reaching that value when one exists. -/

theorem hgFold_spec (l : List MartialSoul) (a0 : Int) (n0 : String) :
    (∀ s ∈ l, s.grade ≤ (l.foldl hgStep (a0, n0)).1)
    ∧ a0 ≤ (l.foldl hgStep (a0, n0)).1
    ∧ (((l.foldl hgStep (a0, n0)).1 = a0 ∧ (l.foldl hgStep (a0, n0)).2 = n0
          ∧ ∀ s ∈ l, s.grade < a0)
      ∨ ∃ s ∈ l, s.grade = (l.foldl hgStep (a0, n0)).1
          ∧ (l.foldl hgStep (a0, n0)).2 = s.name) := by
  induction l generalizing a0 n0 with
  | nil => exact ⟨by simp, le_refl _, Or.inl ⟨rfl, rfl, by simp⟩⟩
  | cons s l ih =>
    rw [List.foldl_cons]
    have hstep : hgStep (a0, n0) s
        = (max a0 s.grade, if s.grade = max a0 s.grade then s.name else n0) := rfl
    rw [hstep]
    obtain ⟨hub, hmono, hcase⟩ :=
      ih (max a0 s.grade) (if s.grade = max a0 s.grade then s.name else n0)
    refine ⟨?_, le_trans (le_max_left _ _) hmono, ?_⟩
    · intro t ht
      rcases List.mem_cons.mp ht with rfl | ht
      · exact le_trans (le_max_right a0 t.grade) hmono
      · exact hub t ht
    · rcases hcase with ⟨hfa, hfn, hlt⟩ | ⟨t, ht, hteq, htn⟩
      · by_cases hs : s.grade = max a0 s.grade
        · right
          refine ⟨s, List.mem_cons_self s l, ?_, ?_⟩
          · rw [hfa, ← hs]
          · rw [hfn, if_pos hs]
        · left
          have ha1 : max a0 s.grade = a0 := by
            rcases max_choice a0 s.grade with hm | hm
            · exact hm
            · exact absurd hm.symm hs
          have hsa : s.grade ≠ a0 := by
            rw [← ha1]
            exact hs
          refine ⟨by rw [hfa, ha1], by rw [hfn, if_neg hs], ?_⟩
          intro t ht
          rcases List.mem_cons.mp ht with rfl | ht
          · exact lt_of_le_of_ne (ha1 ▸ le_max_right a0 t.grade) hsa
          · exact ha1 ▸ hlt t ht
      · exact Or.inr ⟨t, List.mem_cons_of_mem s ht, hteq, htn⟩

/-- C8 counterexample: the claim fails on a loadable document whose only
soul has grade −1. The maximum grade over the loaded souls is −1, but
`Summary().highestGrade` is 0 (the scan accumulator starts at 0), which
is no soul grade at all, and `highestSoulName` is empty rather than the
name of a maximal-grade soul. -/
theorem highestGrade_negative_counterexample :
    LoadFromFile emptyCompendium "p" fixtureNegInput
        = .ok (true, fixtureNegCompendium)
    ∧ LoadedState fixtureNegCompendium
    ∧ Souls fixtureNegCompendium
        = [{ name := "A", grade := -1, category := "", affinities := [],
             description := "" }]
    ∧ (Summary fixtureNegCompendium).highestGrade = 0
    ∧ (Summary fixtureNegCompendium).highestSoulName = "" := by
  refine ⟨?_, ⟨rfl, by simp [fixtureNegCompendium], rfl⟩, rfl, ?_, ?_⟩
  · rfl
  · rfl
  · rfl

/-- C8 amended: for a loaded compendium, `Summary().highestGrade` is an
upper bound of all soul grades but never below 0 (the scan starts at 0);
whenever some soul has a non-negative grade — in particular for all
spec-conformant data — `highestGrade` is the maximum soul grade and
`highestSoulName` is the name of a soul attaining it. -/
theorem highestGrade_spec (c : HeavenEarthCompendium) (h : LoadedState c) :
    (∀ s ∈ c.souls, s.grade ≤ (Summary c).highestGrade)
    ∧ 0 ≤ (Summary c).highestGrade
    ∧ ((∃ s ∈ c.souls, 0 ≤ s.grade) →
        ∃ s ∈ c.souls, s.grade = (Summary c).highestGrade
          ∧ (Summary c).highestSoulName = s.name) := by
  obtain ⟨hl, hne, hsum⟩ := h
  have hred : Summary c = ComputeSummary c.souls := hsum
  rw [computeSummary_reduce hne] at hred
  rw [hred]
  obtain ⟨hub, hmono, hcase⟩ := hgFold_spec c.souls 0 ""
  refine ⟨hub, hmono, ?_⟩
  rintro ⟨s, hs, hsg⟩
  rcases hcase with ⟨hfa, hfn, hlt⟩ | ⟨t, ht, hteq, htn⟩
  · exact absurd (hlt s hs) (not_lt.mpr hsg)
  · exact ⟨t, ht, hteq, htn⟩

/-- Witness for the amended C8 at a concrete loaded compendium. -/
theorem highestGrade_spec_witness :
    LoadedState fixtureCompendium
    ∧ ((∀ s ∈ fixtureCompendium.souls,
          s.grade ≤ (Summary fixtureCompendium).highestGrade)
      ∧ 0 ≤ (Summary fixtureCompendium).highestGrade
      ∧ ((∃ s ∈ fixtureCompendium.souls, 0 ≤ s.grade) →
          ∃ s ∈ fixtureCompendium.souls,
            s.grade = (Summary fixtureCompendium).highestGrade
              ∧ (Summary fixtureCompendium).highestSoulName = s.name)) :=
  ⟨⟨rfl, by simp [fixtureCompendium], rfl⟩,
   highestGrade_spec fixtureCompendium ⟨rfl, by simp [fixtureCompendium], rfl⟩⟩

/-! Rotation of the spotlight pointer. -/

theorem clampIndex_lt {v : HeavenEarthView} (h : v.spotlightCards ≠ []) :
    clampIndex v < v.spotlightCards.length := by
  unfold clampIndex
  have hpos : 0 < v.spotlightCards.length := List.length_pos.mpr h
  by_cases hc : v.spotlightCards.length ≤ v.activePrimarySoulIndex
  · rw [if_pos hc]
    exact hpos
  · rw [if_neg hc]
    omega

theorem clampIndex_of_lt {v : HeavenEarthView}
    (h : v.activePrimarySoulIndex < v.spotlightCards.length) :
    clampIndex v = v.activePrimarySoulIndex := by
  unfold clampIndex
  rw [if_neg (by omega)]

theorem onPrimaryAction_rotate {v : HeavenEarthView}
    (h : v.spotlightCards ≠ []) :
    (OnPrimaryAction v).1
      = spotMessage (v.spotlightCards.getD (clampIndex v) { soul := none })
    ∧ (OnPrimaryAction v).2
      = { v with activePrimarySoulIndex :=
            (clampIndex v + 1) % v.spotlightCards.length } := by
  unfold OnPrimaryAction
  rw [if_neg (by simpa [List.isEmpty_iff] using h)]
  exact ⟨rfl, rfl⟩

theorem readSeq_mod (k : Nat) :
    ∀ v : HeavenEarthView, v.spotlightCards ≠ [] →
      readSeq k v = (List.range k).map
        (fun t => (clampIndex v + t) % v.spotlightCards.length) := by
  induction k with
  | zero => intro v h; rfl
  | succ k ih =>
    intro v h
    have hrot := (onPrimaryAction_rotate h).2
    have hcards : (OnPrimaryAction v).2.spotlightCards = v.spotlightCards := by
      rw [hrot]
    have hne2 : (OnPrimaryAction v).2.spotlightCards ≠ [] := by
      rw [hcards]
      exact h
    have hpos : 0 < v.spotlightCards.length := List.length_pos.mpr h
    have hidx : (OnPrimaryAction v).2.activePrimarySoulIndex
        = (clampIndex v + 1) % v.spotlightCards.length := by rw [hrot]
    have hclamp2 : clampIndex (OnPrimaryAction v).2
        = (clampIndex v + 1) % v.spotlightCards.length := by
      rw [clampIndex_of_lt, hidx]
      rw [hcards, hidx]
      exact Nat.mod_lt _ hpos
    rw [readSeq, ih _ hne2, hclamp2, hcards]
    rw [List.range_succ_eq_map, List.map_cons, List.map_map]
    congr 1
    · rw [Nat.add_zero, Nat.mod_eq_of_lt (clampIndex_lt h)]
    · refine List.map_congr_left ?_
      intro t _
      simp only [Function.comp]
      rw [Nat.mod_add_mod]
      congr 1
      omega

/-- C9: with a non-empty spotlight card list of length n, each
`OnPrimaryAction` call writes the status message of the card at the
clamped pointer, leaves the cards unchanged, and advances the pointer to
(clamped pointer + 1) mod n, which is always below n; the n indices read
by n successive calls are pairwise distinct and cover every card, so
each spotlight entry is visited exactly once before the rotation
repeats. -/
theorem spotlightRotation_spec (v : HeavenEarthView)
    (h : v.spotlightCards ≠ []) :
    (OnPrimaryAction v).1
        = spotMessage (v.spotlightCards.getD (clampIndex v) { soul := none })
    ∧ (OnPrimaryAction v).2.spotlightCards = v.spotlightCards
    ∧ (OnPrimaryAction v).2.activePrimarySoulIndex
        = (clampIndex v + 1) % v.spotlightCards.length
    ∧ (OnPrimaryAction v).2.activePrimarySoulIndex < v.spotlightCards.length
    ∧ (readSeq v.spotlightCards.length v).Nodup
    ∧ ∀ j < v.spotlightCards.length, j ∈ readSeq v.spotlightCards.length v := by
  obtain ⟨hmsg, hrot⟩ := onPrimaryAction_rotate h
  have hpos : 0 < v.spotlightCards.length := List.length_pos.mpr h
  have hidx : (OnPrimaryAction v).2.activePrimarySoulIndex
      = (clampIndex v + 1) % v.spotlightCards.length := by rw [hrot]
  refine ⟨hmsg, by rw [hrot], hidx, ?_, ?_, ?_⟩
  · rw [hidx]
    exact Nat.mod_lt _ hpos
  · rw [readSeq_mod _ v h]
    refine List.Nodup.map_on ?_ (List.nodup_range _)
    intro t ht u hu heq
    rw [List.mem_range] at ht hu
    have hmod := Nat.ModEq.add_left_cancel' (clampIndex v) heq
    rw [Nat.ModEq, Nat.mod_eq_of_lt ht, Nat.mod_eq_of_lt hu] at hmod
    exact hmod
  · intro j hj
    rw [readSeq_mod _ v h]
    refine List.mem_map.mpr
      ⟨(v.spotlightCards.length + j - clampIndex v) % v.spotlightCards.length,
       List.mem_range.mpr (Nat.mod_lt _ hpos), ?_⟩
    rw [Nat.add_mod_mod]
    have hc := clampIndex_lt h
    have h1 : clampIndex v + (v.spotlightCards.length + j - clampIndex v)
        = v.spotlightCards.length + j := by omega
    rw [h1, Nat.add_mod_left, Nat.mod_eq_of_lt hj]

/-- Witness for C9 at a concrete three-card view with an out-of-range
pointer. -/
theorem spotlightRotation_spec_witness :
    fixtureView.spotlightCards ≠ []
    ∧ ((OnPrimaryAction fixtureView).1
          = spotMessage (fixtureView.spotlightCards.getD
              (clampIndex fixtureView) { soul := none })
      ∧ (OnPrimaryAction fixtureView).2.spotlightCards
          = fixtureView.spotlightCards
      ∧ (OnPrimaryAction fixtureView).2.activePrimarySoulIndex
          = (clampIndex fixtureView + 1) % fixtureView.spotlightCards.length
      ∧ (OnPrimaryAction fixtureView).2.activePrimarySoulIndex
          < fixtureView.spotlightCards.length
      ∧ (readSeq fixtureView.spotlightCards.length fixtureView).Nodup
      ∧ ∀ j < fixtureView.spotlightCards.length,
          j ∈ readSeq fixtureView.spotlightCards.length fixtureView) :=
  ⟨by simp [fixtureView],
   spotlightRotation_spec fixtureView (by simp [fixtureView])⟩

/-! View operations and the shared compendium. -/

/-- C3 counterexample: `Activate` on a not-yet-loaded compendium whose
default path resolves to a valid document performs the lazy
`LoadDefault` and so changes the compendium observed through the shared
reference: `IsLoaded` flips from false to true. The view constructor
takes the same lazy-load branch. Hence not every view operation leaves
the compendium unchanged. -/
theorem viewActivate_mutates_counterexample :
    (Activate fixtureFs HeavenEarthViewInit emptyCompendium).map
        (fun r => IsLoaded r.2) = .ok true
    ∧ IsLoaded emptyCompendium = false :=
  ⟨rfl, rfl⟩

/-- C3 amended: the compendium is read-only after its initial load: once
`IsLoaded()` holds, construction returns it untouched (the lazy
`LoadDefault` branch is skipped) and `Activate` only reads it, rebinding
the cached spotlight cards. `BindContent`, `Render`, `OnPrimaryAction`
and `Deactivate` contain no compendium access at all — their embeddings
are functions of the view state alone — so they can never mutate it.
Only the lazy initial load inside construction or `Activate` of an
unloaded compendium writes to it. -/
theorem viewOps_readonly_after_load (fs : FileSystem) (v : HeavenEarthView)
    (c : HeavenEarthCompendium) (h : c.loaded = true) :
    HeavenEarthViewConstruct fs c = .ok (HeavenEarthViewInit, c)
    ∧ Activate fs v c
        = .ok ({ v with
                 dataAvailable := true
                 spotlightCards := BuildSpotlights true c }, c) := by
  constructor
  · unfold HeavenEarthViewConstruct
    rw [if_pos h]
  · unfold Activate
    rw [if_pos h]
    simp only [h]

/-- Witness for the amended C3 at a concrete loaded compendium. -/
theorem viewOps_readonly_after_load_witness :
    fixtureCompendium.loaded = true
    ∧ (HeavenEarthViewConstruct fixtureFs fixtureCompendium
          = .ok (HeavenEarthViewInit, fixtureCompendium)
      ∧ Activate fixtureFs fixtureView fixtureCompendium
          = .ok ({ fixtureView with
                   dataAvailable := true
                   spotlightCards := BuildSpotlights true fixtureCompendium },
                 fixtureCompendium)) :=
  ⟨rfl, viewOps_readonly_after_load fixtureFs fixtureView fixtureCompendium rfl⟩

/-! Normalisation of affinity keys. -/

theorem normalizeKey_ne_empty {a : String} (h : a ≠ "") :
    NormalizeKey a ≠ "" := by
  unfold NormalizeKey
  cases a with
  | mk da =>
    cases da with
    | nil => exact absurd rfl h
    | cons c cs => simp [String.ext_iff]

theorem mem_affinityKeyStream {souls : List MartialSoul} {k : String} :
    k ∈ affinityKeyStream souls
      ↔ ∃ s ∈ souls, ∃ a ∈ s.affinities, a ≠ "" ∧ NormalizeKey a = k := by
  unfold affinityKeyStream
  rw [List.mem_map]
  constructor
  · rintro ⟨a, ha, rfl⟩
    rw [List.mem_filter] at ha
    obtain ⟨haf, hane⟩ := ha
    obtain ⟨s, hs, has⟩ := List.mem_flatMap.mp haf
    exact ⟨s, hs, a, has, by simpa using hane, rfl⟩
  · rintro ⟨s, hs, a, has, hane, rfl⟩
    exact ⟨a,
      List.mem_filter.mpr ⟨List.mem_flatMap.mpr ⟨s, hs, has⟩, by simpa using hane⟩,
      rfl⟩

theorem count_affinityKeyStream (souls : List MartialSoul) (k : String) :
    (affinityKeyStream souls).count k
      = ((souls.flatMap (fun s => s.affinities)).filter
          (fun a => (NormalizeKey a == k) && !(a == ""))).length := by
  unfold affinityKeyStream
  rw [List.count_eq_countP, List.countP_map, List.countP_eq_length_filter,
    List.filter_filter]
  rfl

/-- C10: affinity aggregation is case-insensitive and drops empties:
a key appears in `Summary().affinityNames` (equivalently, in the
`affinityCounts` histogram) exactly when it is the uppercased
`NormalizeKey` form of some non-empty affinity of some loaded soul, the
count stored for a key is the combined number of non-empty affinity
occurrences whose uppercased form is that key (so spellings differing
only in case are merged into one entry), and no stored key is the
original empty string — all keys are the normalised forms. -/
theorem affinityNormalization_spec (c : HeavenEarthCompendium)
    (h : LoadedState c) :
    (∀ k, (k ∈ (Summary c).affinityNames
        ↔ ∃ s ∈ c.souls, ∃ a ∈ s.affinities, a ≠ "" ∧ NormalizeKey a = k))
    ∧ (∀ (k : String) (m : Nat),
        ((k, m) ∈ (Summary c).affinityCounts
          ↔ (∃ s ∈ c.souls, ∃ a ∈ s.affinities, a ≠ "" ∧ NormalizeKey a = k)
            ∧ m = ((c.souls.flatMap (fun s => s.affinities)).filter
                (fun a => (NormalizeKey a == k) && !(a == ""))).length))
    ∧ (∀ k ∈ (Summary c).affinityNames, k ≠ "")
    ∧ (∀ p ∈ (Summary c).affinityCounts, p.1 ≠ "") := by
  obtain ⟨hl, hne, hsum⟩ := h
  have hred : Summary c = ComputeSummary c.souls := hsum
  rw [computeSummary_reduce hne] at hred
  have hnl : (Summary c).affinityNames
      = sortBy strLe (distinctElems (affinityKeyStream c.souls)) := by
    rw [hred]
  have hcl : (Summary c).affinityCounts
      = sortBy affinityPairLe
          ((distinctElems (affinityKeyStream c.souls)).map
            (fun k => (k, (affinityKeyStream c.souls).count k))) := by
    rw [hred]
  have hnames : ∀ k, (k ∈ (Summary c).affinityNames
      ↔ k ∈ affinityKeyStream c.souls) := by
    intro k
    rw [hnl, (sortBy_perm strLe _).mem_iff, mem_distinctElems]
  refine ⟨?_, ?_, ?_, ?_⟩
  · intro k
    rw [hnames k]
    exact mem_affinityKeyStream
  · intro k m
    rw [hcl, sortBy_histogram_mem, mem_affinityKeyStream,
      count_affinityKeyStream]
  · intro k hk
    obtain ⟨s, _, a, _, hane, hnk⟩ :=
      mem_affinityKeyStream.mp ((hnames k).mp hk)
    exact hnk ▸ normalizeKey_ne_empty hane
  · intro p hp
    have hp2 : (p.1, p.2) ∈ (Summary c).affinityCounts := by
      simpa using hp
    rw [hcl, sortBy_histogram_mem] at hp2
    obtain ⟨s, _, a, _, hane, hnk⟩ := mem_affinityKeyStream.mp hp2.1
    exact hnk ▸ normalizeKey_ne_empty hane

/-- Witness for C10 at a concrete loaded compendium whose souls carry
the affinity spellings Fire, earth and FIRE. -/
theorem affinityNormalization_spec_witness :
    LoadedState fixtureCompendium
    ∧ ((∀ k, (k ∈ (Summary fixtureCompendium).affinityNames
          ↔ ∃ s ∈ fixtureCompendium.souls, ∃ a ∈ s.affinities,
              a ≠ "" ∧ NormalizeKey a = k))
      ∧ (∀ (k : String) (m : Nat),
          ((k, m) ∈ (Summary fixtureCompendium).affinityCounts
            ↔ (∃ s ∈ fixtureCompendium.souls, ∃ a ∈ s.affinities,
                  a ≠ "" ∧ NormalizeKey a = k)
              ∧ m = ((fixtureCompendium.souls.flatMap (fun s => s.affinities)).filter
                  (fun a => (NormalizeKey a == k) && !(a == ""))).length))
      ∧ (∀ k ∈ (Summary fixtureCompendium).affinityNames, k ≠ "")
      ∧ (∀ p ∈ (Summary fixtureCompendium).affinityCounts, p.1 ≠ "")) :=
  ⟨⟨rfl, by simp [fixtureCompendium], rfl⟩,
   affinityNormalization_spec fixtureCompendium
     ⟨rfl, by simp [fixtureCompendium], rfl⟩⟩

end Colony
